import Mathlib

/-!
Verification of the coarse-offset consistency analysis subsystem of the
`gfriedri_dataset-alignment` pipeline
(`s04_proof_read_coarse_offsets/inspection_utils.py` and
`s04_proof_read_coarse_offsets/identify_outliers.py`).

Shallow embedding conventions:
* numpy 2-D integer tile-id maps become `Grid := List (List ℤ)`;
* the rank-4 aggregated offset tensors become nested lists of `CVal`,
  a rational number or an explicit infinity (mirroring float ±inf);
* fallible code paths (Python exceptions) become `Option`/`Except`;
* disk I/O becomes explicit data: a section directory is a record of the
  parsed section number plus the (optionally present) contents of its
  `tile_id_map.json` / `cx_cy.json` / `coarse.npz` files, and the outlier
  report file is a list of lines threaded through the writer.

The function `find_outliers` is imported by `identify_outliers.py` from
`inspection_utils` but its definition is not present in the source tree;
it is modelled from the specification (see `find_outliers` below).
-/

set_option maxHeartbeats 1000000

namespace DatasetAlign

/-- A tile-id map: 2-D grid of integers, sentinel -1 for holes
(numpy 2-D `int` array in the source). -/
abbrev Grid : Type := List (List ℤ)

/-- `cellAt m y x` is the value of `m[y][x]`, `none` when out of bounds
(models numpy indexing that raises `IndexError`). -/
def cellAt (m : Grid) (y x : ℕ) : Option ℤ :=
  m[y]?.bind (fun row => row[x]?)

/-- First index of `v` in a row; models the column part of
`np.where(tile_id == tile_id_map)` restricted to the first hit. -/
def findInRow : List ℤ → ℤ → Option ℕ
  | [], _ => none
  | a :: rest, v => if a = v then some 0 else (findInRow rest v).map (· + 1)

/-- Row-major first occurrence of `v` in the grid; models
`y, x = np.where(tile_id == tile_id_map); (y[0], x[0])`. -/
def findCoord : Grid → ℤ → Option (ℕ × ℕ)
  | [], _ => none
  | row :: rest, v =>
    match findInRow row v with
    | some x => some (0, x)
    | none => (findCoord rest v).map (fun p => (p.1 + 1, p.2))

/-- Membership of a value in a numpy array (`tile_id in tile_id_map`). -/
def npContains (m : Grid) (v : ℤ) : Bool :=
  m.any (fun row => row.contains v)

/-- `get_vert_tile_id` from `inspection_utils.py`: tile id directly below
the first occurrence of `tile_id`; `none` for negative ids, absent ids,
or when the row below does not exist (`IndexError` caught). -/
def get_vert_tile_id (m : Grid) (tile_id : ℤ) : Option ℤ :=
  if tile_id < 0 then none
  else if npContains m tile_id = false then none
  else
    match findCoord m tile_id with
    | some (y, x) => cellAt m (y + 1) x
    | none => none

/-- `get_tid_idx` from `inspection_utils.py`: (row, col) of `tile_id` in the
grid, `none` when absent or when `tile_id = -1`. -/
def get_tid_idx (m : Grid) (tile_id : ℤ) : Option (ℕ × ℕ) :=
  if npContains m tile_id = false then none
  else if tile_id = -1 then none
  else findCoord m tile_id

/-- `(y, x)` is the row-major first occurrence of `v` in `m`. -/
def isFirstOcc (m : Grid) (v : ℤ) (y x : ℕ) : Prop :=
  cellAt m y x = some v ∧
    ∀ y2 x2, (y2 < y ∨ (y2 = y ∧ x2 < x)) → cellAt m y2 x2 ≠ some v

/-- A scalar stored in a coarse-offset tensor: a finite float (modelled as
a rational) or one of the two infinities used as the degenerate marker. -/
inductive CVal : Type where
  | fin : ℚ → CVal
  | pinf : CVal
  | ninf : CVal
deriving DecidableEq

/-- `np.isinf` on one scalar. -/
def CVal.isInfB : CVal → Bool
  | .fin _ => false
  | .pinf => true
  | .ninf => true

/-- A per-section stacked offset tensor `np.array((cx, cy))`, rank 4:
channel (cx/cy) × vector component × grid row × grid col. -/
abbrev T4 : Type := List (List (List (List CVal)))

/-- Value of a rank-4 tensor at `(c, z, y, x)`; `none` out of bounds. -/
def t4get (t : T4) (c z y x : ℕ) : Option CVal :=
  t[c]?.bind fun a => a[z]?.bind fun b => b[y]?.bind fun r => r[x]?

/-- Pair each element of a list with its index, starting at `j`
(models iterating a numpy axis with positions). -/
def withIdx {α : Type} : List α → ℕ → List (ℕ × α)
  | [], _ => []
  | a :: r, i => (i, a) :: withIdx r (i + 1)

/-- Indices of infinite values within one innermost row. -/
def infRowCoords (c z y : ℕ) (row : List CVal) : List (ℕ × ℕ × ℕ × ℕ) :=
  (withIdx row 0).filterMap
    (fun p => if p.2.isInfB then some (c, z, y, p.1) else none)

/-- All coordinates holding an infinite value, in lexicographic order;
models `np.where(np.isinf(cxyz[section_num]))` zipped into tuples. -/
def infCoords (t : T4) : List (ℕ × ℕ × ℕ × ℕ) :=
  (withIdx t 0).flatMap (fun pc =>
    (withIdx pc.2 0).flatMap (fun pz =>
      (withIdx pz.2 0).flatMap (fun py =>
        infRowCoords pc.1 pz.1 py.1 py.2)))

/-- `tile_id_from_coord` from `inspection_utils.py`: accepts a coordinate
of length 2 or 4, takes its last two components as `(y, x)`, and looks the
tile id up in the grid (`IndexError` caught as `none`). -/
def tile_id_from_coord (coord : List ℕ) (m : Grid) : Option ℤ :=
  if coord.length = 2 ∨ coord.length = 4 then
    match coord.reverse with
    | x :: y :: _ => cellAt m y x
    | _ => none
  else none

/-- Neighbor coordinate computed inside `locate_inf_vals`: from the leading
component `crd[0]` choose `dx = 1` (column to the right) when it is 0 and
`dy = 1` (row below) otherwise, then add `(dy, dx)` to the last two
components. -/
def neighborCoord (crd : List ℕ) : List ℕ :=
  let dx : ℕ := if crd.headI = 0 then 1 else 0
  let dy : ℕ := if crd.headI = 0 then 0 else 1
  match crd.reverse with
  | x :: y :: rest => ((x + dx) :: (y + dy) :: rest).reverse
  | _ => crd

/-- Per-section body of `locate_inf_vals`: for every infinite coordinate,
the pair `(tile_id_a, tile_id_b)` of the offending tile and its resolved
neighbor. -/
def locatePairs (t : T4) (m : Grid) :
    List ((ℕ × ℕ × ℕ × ℕ) × Option ℤ × Option ℤ) :=
  (infCoords t).map (fun q =>
    let crd : List ℕ := [q.1, q.2.1, q.2.2.1, q.2.2.2]
    (q, tile_id_from_coord crd m, tile_id_from_coord (neighborCoord crd) m))

/-- A parsed JSON numeric array of arbitrary nesting (the payload of
`cx` / `cy` in `cx_cy.json`, turned into a numpy array by `np.asarray`). -/
inductive JArr : Type where
  | leaf : ℚ → JArr
  | node : List JArr → JArr

/-- `ndim` of the resulting numpy array (depth along first elements,
as for rectangular nested data). -/
def ndim : JArr → ℕ
  | .leaf _ => 0
  | .node [] => 1
  | .node (a :: _) => ndim a + 1

/-- Option-valued map over a list, `none` as soon as one element maps to
`none` (failure of an indexing step over one numpy axis). -/
def mapO {α β : Type} (f : α → Option β) : List α → Option (List β)
  | [] => some []
  | a :: r => (f a).bind (fun b => (mapO f r).map (fun bs => b :: bs))

/-- numpy basic indexing `a[:, 0, ...]`: drop to index 0 on axis 1. -/
def sel0axis1 : JArr → Option JArr
  | .node xs =>
    (mapO (fun s => match s with
      | JArr.node (y :: _) => some y
      | _ => none) xs).map JArr.node
  | .leaf _ => none

/-- numpy basic indexing `a[:, 0, 0, ...]`: index 0 on axes 1 and 2. -/
def sel0axes12 : JArr → Option JArr
  | .node xs =>
    (mapO (fun s => match s with
      | JArr.node (JArr.node (y :: _) :: _) => some y
      | _ => none) xs).map JArr.node
  | .leaf _ => none

/-- Multi-axis element access `a[i0][i1]...` on a nested array. -/
def jget : JArr → List ℕ → Option JArr
  | a, [] => some a
  | JArr.node xs, i :: rest => xs[i]?.bind (fun s => jget s rest)
  | JArr.leaf _, _ :: _ => none
termination_by _ path => path.length

/-- A per-section coarse offset file: a `coarse.npz` archive (entries
`coarse_mesh`, `cx`, `cy`, each possibly absent) or a `cx_cy.json`
document with `cx` and `cy` arrays. -/
inductive CoarseFile : Type where
  | npzF : Option JArr → Option JArr → Option JArr → CoarseFile
  | jsonF : JArr → JArr → CoarseFile

/-- `read_coarse_mat` from `inspection_utils.py`. On npz, all three
entries are demanded (a missing one raises `KeyError`, caught, yielding
`None`). On JSON, when `cx` is 4-dimensional both arrays are indexed
`[:, 0, ...]`, when 5-dimensional `[:, 0, 0, ...]`; indexing failures are
caught, yielding `None` (modelled as `none`). -/
def read_coarse_mat : CoarseFile → Option (Option JArr × JArr × JArr)
  | .npzF mesh cx cy =>
    match mesh, cx, cy with
    | some m, some a, some b => some (some m, a, b)
    | _, _, _ => none
  | .jsonF cx cy =>
    if ndim cx = 4 then
      match sel0axis1 cx, sel0axis1 cy with
      | some a, some b => some (none, a, b)
      | _, _ => none
    else if ndim cx = 5 then
      match sel0axes12 cx, sel0axes12 cy with
      | some a, some b => some (none, a, b)
      | _, _ => none
    else some (none, cx, cy)

/-- One section directory, reduced to what the aggregation passes read:
the parsed section number (`get_section_num` of the directory name) and
the contents of the three optional files. -/
structure SectionDir : Type where
  num : ℤ
  tidMapFile : Option Grid
  cxCyFile : Option (JArr × JArr)
  hasCoarseNpz : Bool

/-- `aggregate_tile_id_maps` from `inspection_utils.py`: sections with a
`tile_id_map.json` are keyed into the archive; those without are appended
to the missing-files report. -/
def aggregate_tile_id_maps : List SectionDir → List (ℤ × Grid) × List ℤ
  | [] => ([], [])
  | d :: rest =>
    let p := aggregate_tile_id_maps rest
    match d.tidMapFile with
    | none => (p.1, d.num :: p.2)
    | some g => ((d.num, g) :: p.1, p.2)

/-- `aggregate_coarse_offsets` from `inspection_utils.py`: the only file
name probed is `cx_cy.json` (`cxy_names = ("cx_cy.json",)`); the stacked
`np.array((cx, cy))` is stored under the section key, a failed parse
crashes the run (`TypeError` on unpacking `None`). -/
def aggregate_coarse_offsets :
    List SectionDir → Except String (List (ℤ × JArr) × List ℤ)
  | [] => .ok ([], [])
  | d :: rest =>
    match d.cxCyFile with
    | none => (aggregate_coarse_offsets rest).map (fun p => (p.1, d.num :: p.2))
    | some (cx, cy) =>
      match read_coarse_mat (.jsonF cx cy) with
      | none => .error "TypeError"
      | some (_, cx2, cy2) =>
        (aggregate_coarse_offsets rest).map
          (fun p => ((d.num, JArr.node [cx2, cy2]) :: p.1, p.2))

/-- Lookup in a key-ordered association list (a Python dict read,
`obj[key]`, with `none` for `KeyError`). -/
def alookup {α : Type} : List (ℕ × α) → ℕ → Option α
  | [], _ => none
  | p :: rest, k => if p.1 = k then some p.2 else alookup rest k

/-- Python dict assignment `d[k] = v`: overwrite in place when the key
exists (keeping its position), append otherwise. -/
def dictInsert {α : Type} (d : List (ℕ × α)) (k : ℕ) (v : α) : List (ℕ × α) :=
  if d.any (fun p => p.1 == k) then
    d.map (fun p => if p.1 == k then (k, v) else p)
  else d ++ [(k, v)]

/-- numpy indexing `t[axis, :, y, x]`: the length-2 vector over the
component axis; `none` when any index is out of bounds (`IndexError`). -/
def getVec (t : T4) (axis y x : ℕ) : Option (List CVal) :=
  t[axis]?.bind (fun t3 => mapO (fun t2 => t2[y]?.bind (fun row => row[x]?)) t3)

/-- One iteration of the loop in `TraceOutlierDetector.get_trace`: locate
the tile in this section's map, then read its shift vector from the
offsets archive; `KeyError` / `IndexError` are caught (`none` = skip). -/
def traceStep (offs : List (ℕ × T4)) (tid : ℤ) (axis : ℕ)
    (p : ℕ × Grid) : Option (ℕ × (List CVal × (ℕ × ℕ))) :=
  match findCoord p.2 tid with
  | none => none
  | some (y, x) =>
    match alookup offs p.1 with
    | none => none
    | some t =>
      match getVec t axis y x with
      | none => none
      | some vec => some (p.1, (vec, (y, x)))

/-- Fold step of a dict-building loop: skip on `none`, upsert on `some`. -/
def upsertStep {α β : Type} (stp : (ℕ × β) → Option (ℕ × α))
    (a : List (ℕ × α)) (b : ℕ × β) : List (ℕ × α) :=
  match stp b with
  | none => a
  | some e => dictInsert a e.1 e.2

/-- `TraceOutlierDetector.get_trace`: iterate all loaded sections, collect
`sec_num -> (vector, (y, x))` into a dict, return `None` when empty. -/
def get_trace (maps : List (ℕ × Grid)) (offs : List (ℕ × T4)) (tid : ℤ)
    (axis : ℕ) : Option (List (ℕ × (List CVal × (ℕ × ℕ)))) :=
  let d := maps.foldl (upsertStep (traceStep offs tid axis)) []
  if d.isEmpty then none else some d

/-- One collected outlier record: (axis, vector component, y, x, tile id,
neighbor tile id), the value stored in `mapped_outliers[num]`. -/
abbrev OutRec : Type := ℕ × ℕ × ℕ × ℕ × ℤ × Option ℤ

/-- The dict comprehension
`{sec_num: v[0][vec_component] for sec_num, v in trace_dict.items()}`:
an out-of-range vector component raises `IndexError` (uncaught here). -/
def mkTrace : List (ℕ × (List CVal × (ℕ × ℕ))) → ℕ →
    Except String (List (ℕ × CVal))
  | [], _ => .ok []
  | p :: rest, vc =>
    match p.2.1[vc]? with
    | none => .error "IndexError"
    | some v => (mkTrace rest vc).map (fun l => (p.1, v) :: l)

/-- Body of the `for num in out_sec_nums` loop in `process_tile_id`:
`y, x = trace_dict[num][1]`, `tid_map = tile_id_maps_obj[str(num)]`,
`tid_a = int(tid_map[y][x])`, and the neighbor: `get_vert_tile_id` for
axis 1, else the raw `int(tid_map[y][x + 1])`, whose `IndexError` is not
caught. -/
def outlierRecord (maps : List (ℕ × Grid)) (axis vc : ℕ)
    (dct : List (ℕ × (List CVal × (ℕ × ℕ)))) (num : ℕ) :
    Except String OutRec :=
  match alookup dct num with
  | none => .error "KeyError"
  | some pv =>
    match alookup maps num with
    | none => .error "KeyError"
    | some tid_map =>
      match cellAt tid_map pv.2.1 pv.2.2 with
      | none => .error "IndexError"
      | some tidA =>
        if axis = 1 then
          .ok (axis, vc, pv.2.1, pv.2.2, tidA, get_vert_tile_id tid_map tidA)
        else
          match cellAt tid_map pv.2.1 (pv.2.2 + 1) with
          | none => .error "IndexError"
          | some tidB => .ok (axis, vc, pv.2.1, pv.2.2, tidA, some tidB)

/-- Records for the flagged sections of one (axis, component) pass, in
flag order. -/
def collectRecords (maps : List (ℕ × Grid)) (axis vc : ℕ)
    (dct : List (ℕ × (List CVal × (ℕ × ℕ)))) :
    List ℕ → Except String (List (ℕ × OutRec))
  | [] => .ok []
  | num :: rest =>
    match outlierRecord maps axis vc dct num with
    | .error e => .error e
    | .ok rec => (collectRecords maps axis vc dct rest).map
        (fun l => (num, rec) :: l)

/-- One (axis, component) combination: build the scalar trace, run the
outlier detector on it, and collect one record per flagged section. -/
def emitForCombo (detect : List (ℕ × CVal) → List ℕ)
    (maps : List (ℕ × Grid)) (axis vc : ℕ)
    (dct : List (ℕ × (List CVal × (ℕ × ℕ)))) :
    Except String (List (ℕ × OutRec)) :=
  match mkTrace dct vc with
  | .error e => .error e
  | .ok trace => collectRecords maps axis vc dct (detect trace)

/-- One axis of `process_tile_id`: an absent trace is skipped
(`continue`), then vector components 0 and 1 are processed in order. -/
def emissionsForAxis (detect : List (ℕ × CVal) → List ℕ)
    (maps : List (ℕ × Grid)) (offs : List (ℕ × T4)) (tid : ℤ) (axis : ℕ) :
    Except String (List (ℕ × OutRec)) :=
  match get_trace maps offs tid axis with
  | none => .ok []
  | some dct =>
    match emitForCombo detect maps axis 0 dct with
    | .error e => .error e
    | .ok l0 =>
      match emitForCombo detect maps axis 1 dct with
      | .error e => .error e
      | .ok l1 => .ok (l0 ++ l1)

/-- All `mapped_outliers[num] = ...` assignments of one `process_tile_id`
call, in execution order (axis 0 then axis 1). -/
def emissions (detect : List (ℕ × CVal) → List ℕ)
    (maps : List (ℕ × Grid)) (offs : List (ℕ × T4)) (tid : ℤ) :
    Except String (List (ℕ × OutRec)) :=
  match emissionsForAxis detect maps offs tid 0 with
  | .error e => .error e
  | .ok a0 =>
    match emissionsForAxis detect maps offs tid 1 with
    | .error e => .error e
    | .ok a1 => .ok (a0 ++ a1)

/-- `TraceOutlierDetector.process_tile_id`, parameterized by the outlier
detector it invokes (`find_outliers`, external). The `mapped_outliers`
dict is the fold of the assignment sequence, which is computed
independently of the dict itself. -/
def process_tile_id (detect : List (ℕ × CVal) → List ℕ)
    (maps : List (ℕ × Grid)) (offs : List (ℕ × T4)) (tid : ℤ) :
    Except String (List (ℕ × OutRec)) :=
  (emissions detect maps offs tid).map
    (fun es => es.foldl (fun acc p => dictInsert acc p.1 p.2) [])

/-- Header line of `coarse_offset_outliers.txt`. -/
def outlier_header : String := "# Slice\tC\tZ\tY\tX\tTileID\tTileID_nn"

/-- `TraceOutlierDetector.store_outliers`: the report file opened in
append mode (`"a"`), the header written only when the file did not exist
before the call; the formatted record lines follow. The file is modelled
as its list of lines (`none` = file absent). -/
def store_outliers (existing : Option (List String)) (lines : List String) :
    List String :=
  match existing with
  | none => outlier_header :: lines
  | some content => content ++ lines

/-- Example offsets tensor of shape (2, 2, 1, 2), all finite. -/
def t4Ex1 : T4 :=
  [[[[CVal.fin 1, CVal.fin 1]], [[CVal.fin 2, CVal.fin 2]]],
   [[[CVal.fin 3, CVal.fin 3]], [[CVal.fin 4, CVal.fin 4]]]]

/-- Example offsets tensor of shape (2, 2, 2, 2), all finite. -/
def t4Ex2 : T4 :=
  [[[[CVal.fin 1, CVal.fin 1], [CVal.fin 1, CVal.fin 1]],
    [[CVal.fin 2, CVal.fin 2], [CVal.fin 2, CVal.fin 2]]],
   [[[CVal.fin 3, CVal.fin 3], [CVal.fin 3, CVal.fin 3]],
    [[CVal.fin 4, CVal.fin 4], [CVal.fin 4, CVal.fin 4]]]]

/-- Example offsets tensor of shape (2, 2, 1, 1), all finite. -/
def t4Ex : T4 :=
  [[[[CVal.fin 1]], [[CVal.fin 2]]], [[[CVal.fin 3]], [[CVal.fin 4]]]]

/-- The local window of position `i` in a value sequence: the up-to-`bef`
observed values directly before `i` followed by the up-to-`aft` observed
values directly after it, truncated (never wrapped) at the sequence ends,
excluding position `i` itself. -/
def winVals (vals : List ℚ) (bef aft i : ℕ) : List ℚ :=
  ((vals.take i).drop (i - bef)) ++ ((vals.drop (i + 1)).take aft)

/-- Mean of a window (0 for an empty window). -/
def qmean (l : List ℚ) : ℚ := l.sum / l.length

/-- Population variance of a window, the square of its standard
deviation. -/
def qvar (l : List ℚ) : ℚ :=
  ((l.map (fun q => (q - qmean l) ^ 2)).sum) / l.length

/-- Whether position `i` is flagged: never with an empty window, else iff
`abs(value[i] - local_mean) > threshold * local_std`, stated in exact
arithmetic through its squared form (both sides are non-negative for a
non-negative threshold). -/
def flaggedAt (vals : List ℚ) (bef aft : ℕ) (thr : ℚ) (i : ℕ) : Bool :=
  let w := winVals vals bef aft i
  if w = [] then false
  else decide ((vals.getD i 0 - qmean w) ^ 2 > thr ^ 2 * qvar w)

/-- Modelled from the spec: `find_outliers` is imported by
`identify_outliers.py` from `inspection_utils` but its definition is not
present in the source tree. Per the specification's windowed-detector
contract, it takes a series given as an ordered-by-key mapping from
section id to scalar, window sizes before and after, and a threshold, and
returns the flagged section ids (not positions): position `i` is flagged
iff `abs(value[i] - local_mean) > threshold * local_std` over the window
of up-to-`window_before` preceding and up-to-`window_after` following
observed values, excluding the point itself, truncating at the sequence
boundaries; a position with an empty window is skipped. (The visible
caller passes a single combined `win_size = n_before + n_after`.) -/
def find_outliers (series : List (ℕ × ℚ)) (bef aft : ℕ) (thr : ℚ) :
    List ℕ :=
  (withIdx series 0).filterMap (fun p =>
    if flaggedAt (series.map Prod.snd) bef aft thr p.1 then some p.2.1
    else none)

/-- Example directory carrying only a `coarse.npz` (no `cx_cy.json`). -/
def npzOnlyDir : SectionDir := ⟨7, none, none, true⟩

/-- Example 4-dimensional JSON offset array, shape (2, 1, 1, 1). -/
def j4Ex : JArr :=
  JArr.node [JArr.node [JArr.node [JArr.node [JArr.leaf 1]]],
             JArr.node [JArr.node [JArr.node [JArr.leaf 2]]]]

/-- `j4Ex` after `[:, 0, ...]`, shape (2, 1, 1). -/
def j3Ex : JArr :=
  JArr.node [JArr.node [JArr.node [JArr.leaf 1]],
             JArr.node [JArr.node [JArr.leaf 2]]]

/-- Example directory with a 4-dimensional `cx_cy.json`. -/
def jsonDirEx : SectionDir := ⟨3, none, some (j4Ex, j4Ex), false⟩

/-- Example 2-dimensional JSON offset array (stored unchanged). -/
def cxJson2 : JArr := JArr.node [JArr.node [JArr.leaf 0]]

/-- Example directory with both files present. -/
def secDirA : SectionDir := ⟨1, some [[1]], some (cxJson2, cxJson2), false⟩

/-- Example directory with both files missing. -/
def secDirB : SectionDir := ⟨2, none, none, false⟩

lemma findInRow_spec (row : List ℤ) (v : ℤ) :
    ∀ x, findInRow row v = some x →
      row[x]? = some v ∧ ∀ x2, x2 < x → row[x2]? ≠ some v := by
  induction row with
  | nil => intro x h; simp [findInRow] at h
  | cons a rest ih =>
    intro x h
    by_cases hav : a = v
    · simp [findInRow, hav] at h
      subst h
      refine ⟨by simp [hav], ?_⟩
      intro x2 hx2; omega
    · simp [findInRow, hav] at h
      obtain ⟨x0, hx0, rfl⟩ := h
      obtain ⟨h1, h2⟩ := ih x0 hx0
      refine ⟨by simpa using h1, ?_⟩
      intro x2 hx2
      cases x2 with
      | zero => simpa using hav
      | succ n =>
        have : n < x0 := by omega
        simpa using h2 n this

lemma findInRow_none (row : List ℤ) (v : ℤ) :
    findInRow row v = none → ∀ x : ℕ, row[x]? ≠ some v := by
  induction row with
  | nil => intro _ x; simp
  | cons a rest ih =>
    intro h x
    by_cases hav : a = v
    · simp [findInRow, hav] at h
    · simp [findInRow, hav] at h
      cases x with
      | zero => simpa using hav
      | succ n => simpa using ih h n

lemma findCoord_first (m : Grid) (v : ℤ) :
    ∀ y x, findCoord m v = some (y, x) → isFirstOcc m v y x := by
  induction m with
  | nil => intro y x h; simp [findCoord] at h
  | cons row rest ih =>
    intro y x h
    unfold findCoord at h
    cases hrow : findInRow row v with
    | some x0 =>
      rw [hrow] at h
      simp only [Option.some.injEq, Prod.mk.injEq] at h
      obtain ⟨hy, hx⟩ := h
      subst hy; subst hx
      obtain ⟨h1, h2⟩ := findInRow_spec row v x0 hrow
      constructor
      · simpa [cellAt] using h1
      · intro y2 x2 hlt
        rcases hlt with hy2 | ⟨rfl, hx2⟩
        · omega
        · simpa [cellAt] using h2 x2 hx2
    | none =>
      rw [hrow] at h
      cases hrec : findCoord rest v with
      | none => rw [hrec] at h; simp at h
      | some p =>
        obtain ⟨y0, x0⟩ := p
        rw [hrec] at h
        simp only [Option.map_some', Option.some.injEq, Prod.mk.injEq] at h
        obtain ⟨hy, hx⟩ := h
        obtain ⟨h1, h2⟩ := ih y0 x0 hrec
        constructor
        · rw [← hy, ← hx]; simpa [cellAt] using h1
        · intro y2 x2 hlt
          cases y2 with
          | zero =>
            simpa [cellAt] using findInRow_none row v hrow x2
          | succ n =>
            rw [← hy, ← hx] at hlt
            have hlt2 : n < y0 ∨ (n = y0 ∧ x2 < x0) := by omega
            simpa [cellAt] using h2 n x2 hlt2

lemma findCoord_none (m : Grid) (v : ℤ) :
    findCoord m v = none → ∀ y x, cellAt m y x ≠ some v := by
  induction m with
  | nil => intro _ y x; simp [cellAt]
  | cons row rest ih =>
    intro h y x
    unfold findCoord at h
    cases hrow : findInRow row v with
    | some x0 => rw [hrow] at h; simp at h
    | none =>
      rw [hrow] at h
      simp at h
      cases y with
      | zero => simpa [cellAt] using findInRow_none row v hrow x
      | succ n => simpa [cellAt] using ih h n x

lemma findInRow_isSome_of_mem (row : List ℤ) (v : ℤ) (h : v ∈ row) :
    (findInRow row v).isSome := by
  induction row with
  | nil => simp at h
  | cons a rest ih =>
    by_cases hav : a = v
    · simp [findInRow, hav]
    · simp only [List.mem_cons] at h
      rcases h with h | h
      · exact absurd h.symm hav
      · simp only [findInRow, if_neg hav]
        have := ih h
        cases hfr : findInRow rest v with
        | none => rw [hfr] at this; simp at this
        | some x => simp

lemma npContains_findCoord (m : Grid) (v : ℤ) (h : npContains m v = true) :
    (findCoord m v).isSome := by
  induction m with
  | nil => simp [npContains] at h
  | cons row rest ih =>
    simp only [npContains, List.any_cons, Bool.or_eq_true] at h
    rcases h with h | h
    · have hmem : v ∈ row := by
        simpa [List.contains_iff_exists_mem_beq] using h
      have := findInRow_isSome_of_mem row v hmem
      unfold findCoord
      cases hfr : findInRow row v with
      | none => rw [hfr] at this; simp at this
      | some x => simp
    · have := ih (by simpa [npContains] using h)
      unfold findCoord
      cases hfr : findInRow row v with
      | some x => simp
      | none =>
        cases hfc : findCoord rest v with
        | none => rw [hfc] at this; simp at this
        | some p => simp

lemma findCoord_npContains (m : Grid) (v : ℤ) (y x : ℕ)
    (h : findCoord m v = some (y, x)) : npContains m v = true := by
  obtain ⟨h1, _⟩ := findCoord_first m v y x h
  simp only [cellAt] at h1
  cases hy : m[y]? with
  | none => rw [hy] at h1; simp at h1
  | some row =>
    rw [hy] at h1
    simp at h1
    have hrowmem : row ∈ m := List.getElem?_mem hy
    have hvmem : v ∈ row := List.getElem?_mem h1
    simp only [npContains, List.any_eq_true]
    exact ⟨row, hrowmem, by simpa [List.contains_iff_exists_mem_beq] using hvmem⟩

/-- C3: `get_vert_tile_id` returns the value stored one row below the
row-major first occurrence of a non-negative `tile_id`, and `none` when
the id is absent or the row below does not exist; on the documented
example grid it returns 8 for id 5 and `none` for id 9. -/
theorem c3_get_vert_tile_id_spec (m : Grid) (tid : ℤ) (h0 : 0 ≤ tid) :
    (get_vert_tile_id m tid
        = (findCoord m tid).bind (fun p => cellAt m (p.1 + 1) p.2))
    ∧ (∀ y x, findCoord m tid = some (y, x) → isFirstOcc m tid y x)
    ∧ (findCoord m tid = none → get_vert_tile_id m tid = none)
    ∧ (∀ y x, findCoord m tid = some (y, x) → m.length ≤ y + 1 →
        get_vert_tile_id m tid = none)
    ∧ get_vert_tile_id [[1, 2, 3], [4, 5, 6], [7, 8, 9]] 5 = some 8
    ∧ get_vert_tile_id [[1, 2, 3], [4, 5, 6], [7, 8, 9]] 9 = none := by
  have hneg : ¬ tid < 0 := by omega
  refine ⟨?_, ?_, ?_, ?_, by decide, by decide⟩
  · cases hfc : findCoord m tid with
    | none =>
      have hcont : npContains m tid = false := by
        cases hc : npContains m tid with
        | false => rfl
        | true =>
          have := npContains_findCoord m tid hc
          rw [hfc] at this; simp at this
      simp [get_vert_tile_id, hneg, hcont, hfc]
    | some p =>
      obtain ⟨y, x⟩ := p
      have hc := findCoord_npContains m tid y x hfc
      simp [get_vert_tile_id, hneg, hc, hfc]
  · intro y x hfc; exact findCoord_first m tid y x hfc
  · intro hfc
    have hcont : npContains m tid = false := by
      cases hc : npContains m tid with
      | false => rfl
      | true =>
        have := npContains_findCoord m tid hc
        rw [hfc] at this; simp at this
    simp [get_vert_tile_id, hneg, hcont]
  · intro y x hfc hlen
    have hc := findCoord_npContains m tid y x hfc
    have hcell : cellAt m (y + 1) x = none := by
      simp only [cellAt]
      have : m[y + 1]? = none := by
        rw [List.getElem?_eq_none_iff]
        exact hlen
      simp [this]
    simp [get_vert_tile_id, hneg, hc, hfc, hcell]

/-- Witness for C3 at the documented example grid. -/
theorem c3_witness :
    get_vert_tile_id [[1, 2, 3], [4, 5, 6], [7, 8, 9]] 5 = some 8 ∧
      get_vert_tile_id [[1, 2, 3], [4, 5, 6], [7, 8, 9]] 9 = none :=
  ⟨(c3_get_vert_tile_id_spec [[1, 2, 3], [4, 5, 6], [7, 8, 9]] 5
      (by norm_num)).2.2.2.2.1,
   (c3_get_vert_tile_id_spec [[1, 2, 3], [4, 5, 6], [7, 8, 9]] 9
      (by norm_num)).2.2.2.2.2⟩

/-- C9: when the cell immediately below the located occurrence holds the
hole sentinel -1, `get_vert_tile_id` returns `some (-1)` (the sentinel is
handed to callers as if it were a tile identity), not `none`. -/
theorem c9_sentinel_below (m : Grid) (tid : ℤ) (h0 : 0 ≤ tid) (y x : ℕ)
    (hf : findCoord m tid = some (y, x)) (hb : cellAt m (y + 1) x = some (-1)) :
    get_vert_tile_id m tid = some (-1) := by
  have hneg : ¬ tid < 0 := by omega
  have hc := findCoord_npContains m tid y x hf
  simp [get_vert_tile_id, hneg, hc, hf, hb]

/-- Witness for C9: grid `[[5], [-1]]`, tile id 5. -/
theorem c9_witness : get_vert_tile_id [[5], [-1]] 5 = some (-1) :=
  c9_sentinel_below [[5], [-1]] 5 (by norm_num) 0 0 (by decide) (by decide)

lemma withIdx_mem {α : Type} (l : List α) :
    ∀ (j i : ℕ) (a : α), (i, a) ∈ withIdx l j ↔ ∃ k, i = j + k ∧ l[k]? = some a := by
  induction l with
  | nil => intro j i a; simp [withIdx]
  | cons b r ih =>
    intro j i a
    simp only [withIdx, List.mem_cons, Prod.mk.injEq, ih (j + 1) i a]
    constructor
    · rintro (⟨rfl, rfl⟩ | ⟨k, rfl, hk⟩)
      · exact ⟨0, by omega, by simp⟩
      · exact ⟨k + 1, by omega, by simpa using hk⟩
    · rintro ⟨k, rfl, hk⟩
      cases k with
      | zero => left; simp at hk; simp [hk]
      | succ n => right; exact ⟨n, by omega, by simpa using hk⟩

lemma withIdx_zero_mem {α : Type} (l : List α) (i : ℕ) (a : α) :
    (i, a) ∈ withIdx l 0 ↔ l[i]? = some a := by
  rw [withIdx_mem]
  constructor
  · rintro ⟨k, rfl, hk⟩; simpa using hk
  · intro h; exact ⟨i, by omega, h⟩

lemma infCoords_mem (t : T4) (c z y x : ℕ) :
    (c, z, y, x) ∈ infCoords t ↔
      ∃ v, t4get t c z y x = some v ∧ v.isInfB = true := by
  simp only [infCoords, infRowCoords, List.mem_flatMap, List.mem_filterMap]
  constructor
  · rintro ⟨⟨c1, t3⟩, hc, ⟨z1, t2⟩, hz, ⟨y1, t1⟩, hy, ⟨x1, v⟩, hx, hif⟩
    by_cases hv : v.isInfB = true
    · rw [if_pos hv] at hif
      simp only [Option.some.injEq, Prod.mk.injEq] at hif
      obtain ⟨rfl, rfl, rfl, rfl⟩ := hif
      rw [withIdx_zero_mem] at hc hz hy hx
      exact ⟨v, by simp [t4get, hc, hz, hy, hx], hv⟩
    · rw [if_neg hv] at hif; simp at hif
  · rintro ⟨v, hv, hinf⟩
    simp only [t4get, Option.bind_eq_some] at hv
    obtain ⟨t3, hc, t2, hz, t1, hy, hx⟩ := hv
    refine ⟨(c, t3), (withIdx_zero_mem t c t3).2 hc,
            (z, t2), (withIdx_zero_mem t3 z t2).2 hz,
            (y, t1), (withIdx_zero_mem t2 y t1).2 hy,
            (x, v), (withIdx_zero_mem t1 x v).2 hx, ?_⟩
    rw [if_pos hinf]

/-- C2: in the degenerate-value locator, every enumerated coordinate holds
an infinite tensor value, and the neighbor tile id is resolved one column
to the right when the leading coordinate component is 0 and one row down
otherwise, yielding an explicit `none` when the shifted coordinate leaves
the grid. -/
theorem c2_locate_inf_vals (t : T4) (m : Grid) (c z y x : ℕ) :
    ((c, z, y, x) ∈ infCoords t ↔
        ∃ v, t4get t c z y x = some v ∧ v.isInfB = true)
    ∧ (∀ a b, ((c, z, y, x), a, b) ∈ locatePairs t m →
        a = cellAt m y x
        ∧ (c = 0 → b = cellAt m y (x + 1))
        ∧ (c ≠ 0 → b = cellAt m (y + 1) x)
        ∧ (c = 0 → m.length ≤ y → b = none)
        ∧ (c = 0 → ∀ row, m[y]? = some row → row.length ≤ x + 1 → b = none)
        ∧ (c ≠ 0 → m.length ≤ y + 1 → b = none)) := by
  refine ⟨infCoords_mem t c z y x, ?_⟩
  intro a b hab
  simp only [locatePairs, List.mem_map] at hab
  obtain ⟨q, hq, heq⟩ := hab
  simp only [Prod.mk.injEq] at heq
  obtain ⟨hq1, ha, hb⟩ := heq
  subst hq1
  have hanorm : a = cellAt m y x := by
    rw [← ha]; rfl
  have hb0 : c = 0 → b = cellAt m y (x + 1) := by
    intro hc; subst hc
    rw [← hb]
    simp [neighborCoord, tile_id_from_coord, List.headI]
  have hb1 : c ≠ 0 → b = cellAt m (y + 1) x := by
    intro hc
    rw [← hb]
    simp [neighborCoord, tile_id_from_coord, List.headI, hc]
  refine ⟨hanorm, hb0, hb1, ?_, ?_, ?_⟩
  · intro hc hlen
    rw [hb0 hc]
    have : m[y]? = none := by rw [List.getElem?_eq_none_iff]; exact hlen
    simp [cellAt, this]
  · intro hc row hrow hlen
    rw [hb0 hc]
    have : row[x + 1]? = none := by rw [List.getElem?_eq_none_iff]; exact hlen
    simp [cellAt, hrow, this]
  · intro hc hlen
    rw [hb1 hc]
    have : m[y + 1]? = none := by rw [List.getElem?_eq_none_iff]; exact hlen
    simp [cellAt, this]

lemma aggregate_tile_id_maps_mem1 (dirs : List SectionDir) (k : ℤ) (g : Grid) :
    (k, g) ∈ (aggregate_tile_id_maps dirs).1 ↔
      ∃ d ∈ dirs, d.num = k ∧ d.tidMapFile = some g := by
  induction dirs with
  | nil => simp [aggregate_tile_id_maps]
  | cons d rest ih =>
    cases hd : d.tidMapFile with
    | none =>
      simp only [aggregate_tile_id_maps, hd, List.mem_cons]
      rw [ih]
      constructor
      · rintro ⟨d2, hmem, hk, hg⟩; exact ⟨d2, Or.inr hmem, hk, hg⟩
      · rintro ⟨d2, hmem | hmem, hk, hg⟩
        · subst hmem; rw [hd] at hg; exact absurd hg (by simp)
        · exact ⟨d2, hmem, hk, hg⟩
    | some g0 =>
      simp only [aggregate_tile_id_maps, hd, List.mem_cons, Prod.mk.injEq]
      rw [ih]
      constructor
      · rintro (⟨hk, hg⟩ | ⟨d2, hmem, hk, hg⟩)
        · exact ⟨d, Or.inl rfl, hk.symm, by rw [hd, hg]⟩
        · exact ⟨d2, Or.inr hmem, hk, hg⟩
      · rintro ⟨d2, hmem | hmem, hk, hg⟩
        · subst hmem; rw [hd] at hg
          simp only [Option.some.injEq] at hg
          exact Or.inl ⟨hk.symm, hg.symm⟩
        · exact Or.inr ⟨d2, hmem, hk, hg⟩

lemma aggregate_tile_id_maps_mem2 (dirs : List SectionDir) (k : ℤ) :
    k ∈ (aggregate_tile_id_maps dirs).2 ↔
      ∃ d ∈ dirs, d.num = k ∧ d.tidMapFile = none := by
  induction dirs with
  | nil => simp [aggregate_tile_id_maps]
  | cons d rest ih =>
    cases hd : d.tidMapFile with
    | none =>
      simp only [aggregate_tile_id_maps, hd, List.mem_cons]
      rw [ih]
      constructor
      · rintro (rfl | ⟨d2, hmem, hk, hg⟩)
        · exact ⟨d, Or.inl rfl, rfl, hd⟩
        · exact ⟨d2, Or.inr hmem, hk, hg⟩
      · rintro ⟨d2, hmem | hmem, hk, hg⟩
        · subst hmem; exact Or.inl hk.symm
        · exact Or.inr ⟨d2, hmem, hk, hg⟩
    | some g0 =>
      simp only [aggregate_tile_id_maps, hd, List.mem_cons]
      rw [ih]
      constructor
      · rintro ⟨d2, hmem, hk, hg⟩; exact ⟨d2, Or.inr hmem, hk, hg⟩
      · rintro ⟨d2, hmem | hmem, hk, hg⟩
        · subst hmem; rw [hd] at hg; exact absurd hg (by simp)
        · exact ⟨d2, hmem, hk, hg⟩

lemma aggregate_coarse_offsets_ok (dirs : List SectionDir) :
    ∀ ofs failed, aggregate_coarse_offsets dirs = .ok (ofs, failed) →
      (∀ k, k ∈ failed ↔ ∃ d ∈ dirs, d.num = k ∧ d.cxCyFile = none)
      ∧ (∀ k v, (k, v) ∈ ofs ↔ ∃ d ∈ dirs, d.num = k ∧
          ∃ cx cy r, d.cxCyFile = some (cx, cy) ∧
            read_coarse_mat (.jsonF cx cy) = some r ∧
            v = JArr.node [r.2.1, r.2.2]) := by
  induction dirs with
  | nil =>
    intro ofs failed h
    simp only [aggregate_coarse_offsets, Except.ok.injEq, Prod.mk.injEq] at h
    obtain ⟨rfl, rfl⟩ := h
    constructor <;> intro k <;> simp
  | cons d rest ih =>
    intro ofs failed h
    cases hd : d.cxCyFile with
    | none =>
      rw [show aggregate_coarse_offsets (d :: rest)
            = (aggregate_coarse_offsets rest).map (fun p => (p.1, d.num :: p.2)) by
          simp [aggregate_coarse_offsets, hd]] at h
      cases hrec : aggregate_coarse_offsets rest with
      | error e => rw [hrec] at h; simp [Except.map] at h
      | ok p =>
        rw [hrec] at h
        simp only [Except.map, Except.ok.injEq, Prod.mk.injEq] at h
        obtain ⟨rfl, rfl⟩ := h
        obtain ⟨ih1, ih2⟩ := ih p.1 p.2 (by rw [hrec])
        constructor
        · intro k
          simp only [List.mem_cons, ih1 k]
          constructor
          · rintro (rfl | ⟨d2, hmem, hk, hg⟩)
            · exact ⟨d, Or.inl rfl, rfl, hd⟩
            · exact ⟨d2, Or.inr hmem, hk, hg⟩
          · rintro ⟨d2, hmem, hk, hg⟩
            rcases hmem with rfl | hmem2
            · exact Or.inl hk.symm
            · exact Or.inr ⟨d2, hmem2, hk, hg⟩
        · intro k v
          rw [ih2 k v]
          constructor
          · rintro ⟨d2, hmem, hk, rest2⟩
            exact ⟨d2, List.mem_cons_of_mem d hmem, hk, rest2⟩
          · rintro ⟨d2, hmem, hk, cx, cy, r, hg, hr, hv⟩
            rcases List.mem_cons.1 hmem with rfl | hmem2
            · rw [hd] at hg; exact absurd hg (by simp)
            · exact ⟨d2, hmem2, hk, cx, cy, r, hg, hr, hv⟩
    | some pcxy =>
      obtain ⟨cx, cy⟩ := pcxy
      cases hread : read_coarse_mat (.jsonF cx cy) with
      | none =>
        rw [show aggregate_coarse_offsets (d :: rest) = .error "TypeError" by
            simp [aggregate_coarse_offsets, hd, hread]] at h
        simp at h
      | some r =>
        obtain ⟨mesh, cx2, cy2⟩ := r
        rw [show aggregate_coarse_offsets (d :: rest)
              = (aggregate_coarse_offsets rest).map
                  (fun p => ((d.num, JArr.node [cx2, cy2]) :: p.1, p.2)) by
            simp [aggregate_coarse_offsets, hd, hread]] at h
        cases hrec : aggregate_coarse_offsets rest with
        | error e => rw [hrec] at h; simp [Except.map] at h
        | ok p =>
          rw [hrec] at h
          simp only [Except.map, Except.ok.injEq, Prod.mk.injEq] at h
          obtain ⟨rfl, rfl⟩ := h
          obtain ⟨ih1, ih2⟩ := ih p.1 p.2 (by rw [hrec])
          constructor
          · intro k
            rw [ih1 k]
            constructor
            · rintro ⟨d2, hmem, hk, hg⟩
              exact ⟨d2, List.mem_cons_of_mem d hmem, hk, hg⟩
            · rintro ⟨d2, hmem, hk, hg⟩
              rcases List.mem_cons.1 hmem with rfl | hmem2
              · rw [hd] at hg; exact absurd hg (by simp)
              · exact ⟨d2, hmem2, hk, hg⟩
          · intro k v
            simp only [List.mem_cons, Prod.mk.injEq, ih2 k v]
            constructor
            · rintro (⟨hk, hv⟩ | ⟨d2, hmem, hk, rest2⟩)
              · exact ⟨d, Or.inl rfl, hk.symm,
                  cx, cy, (mesh, cx2, cy2), hd, hread, hv⟩
              · exact ⟨d2, Or.inr hmem, hk, rest2⟩
            · rintro ⟨d2, hmem, hk, cx3, cy3, r3, hg, hr, hv⟩
              rcases hmem with rfl | hmem2
              · rw [hd] at hg
                simp only [Option.some.injEq, Prod.mk.injEq] at hg
                obtain ⟨rfl, rfl⟩ := hg
                rw [hread] at hr
                simp only [Option.some.injEq] at hr
                subst hr
                exact Or.inl ⟨hk.symm, hv⟩
              · exact Or.inr ⟨d2, hmem2, hk, cx3, cy3, r3, hg, hr, hv⟩

lemma aggregate_coarse_offsets_ok_reads (dirs : List SectionDir) :
    ∀ p, aggregate_coarse_offsets dirs = .ok p →
      ∀ d ∈ dirs, ∀ cx cy, d.cxCyFile = some (cx, cy) →
        ∃ r, read_coarse_mat (.jsonF cx cy) = some r := by
  induction dirs with
  | nil => intro p _ d hmem; simp at hmem
  | cons d0 rest ih =>
    intro p hok d hmem cx cy hg
    cases hd : d0.cxCyFile with
    | none =>
      rw [show aggregate_coarse_offsets (d0 :: rest)
            = (aggregate_coarse_offsets rest).map (fun q => (q.1, d0.num :: q.2)) by
          simp [aggregate_coarse_offsets, hd]] at hok
      cases hrec : aggregate_coarse_offsets rest with
      | error e => rw [hrec] at hok; simp [Except.map] at hok
      | ok q =>
        rcases List.mem_cons.1 hmem with rfl | hmem2
        · rw [hd] at hg; exact absurd hg (by simp)
        · exact ih q (by rw [hrec]) d hmem2 cx cy hg
    | some pcxy =>
      obtain ⟨cx0, cy0⟩ := pcxy
      cases hread : read_coarse_mat (.jsonF cx0 cy0) with
      | none =>
        rw [show aggregate_coarse_offsets (d0 :: rest) = .error "TypeError" by
            simp [aggregate_coarse_offsets, hd, hread]] at hok
        simp at hok
      | some r =>
        obtain ⟨mesh, cx2, cy2⟩ := r
        rw [show aggregate_coarse_offsets (d0 :: rest)
              = (aggregate_coarse_offsets rest).map
                  (fun q => ((d0.num, JArr.node [cx2, cy2]) :: q.1, q.2)) by
            simp [aggregate_coarse_offsets, hd, hread]] at hok
        cases hrec : aggregate_coarse_offsets rest with
        | error e => rw [hrec] at hok; simp [Except.map] at hok
        | ok q =>
          rcases List.mem_cons.1 hmem with rfl | hmem2
          · rw [hd] at hg
            simp only [Option.some.injEq, Prod.mk.injEq] at hg
            obtain ⟨rfl, rfl⟩ := hg
            exact ⟨(mesh, cx2, cy2), hread⟩
          · exact ih q (by rw [hrec]) d hmem2 cx cy hg

lemma aggregate_coarse_offsets_total (dirs : List SectionDir)
    (h : ∀ d ∈ dirs, ∀ cx cy, d.cxCyFile = some (cx, cy) →
      (read_coarse_mat (.jsonF cx cy)).isSome) :
    ∃ p, aggregate_coarse_offsets dirs = .ok p := by
  induction dirs with
  | nil => exact ⟨([], []), rfl⟩
  | cons d rest ih =>
    obtain ⟨p, hp⟩ := ih (fun d2 hmem cx cy hg =>
      h d2 (List.mem_cons_of_mem d hmem) cx cy hg)
    cases hd : d.cxCyFile with
    | none =>
      refine ⟨(p.1, d.num :: p.2), ?_⟩
      simp [aggregate_coarse_offsets, hd, hp, Except.map]
    | some pcxy =>
      obtain ⟨cx, cy⟩ := pcxy
      have hsome := h d (List.mem_cons_self d rest) cx cy hd
      cases hread : read_coarse_mat (.jsonF cx cy) with
      | none => rw [hread] at hsome; simp at hsome
      | some r =>
        obtain ⟨mesh, cx2, cy2⟩ := r
        refine ⟨((d.num, JArr.node [cx2, cy2]) :: p.1, p.2), ?_⟩
        simp [aggregate_coarse_offsets, hd, hread, hp, Except.map]

/-- C5: a section directory lacking its tile-id-map file (resp. its
coarse-offset file) is recorded in the corresponding missing-files list,
gets no entry in the aggregated mapping, and the pass processes all the
other directories (no entry is lost, and the offsets pass succeeds
whenever every present file parses). -/
theorem c5_missing_section_files (dirs : List SectionDir)
    (hnd : (dirs.map SectionDir.num).Nodup) :
    (∀ d ∈ dirs, d.tidMapFile = none →
        d.num ∈ (aggregate_tile_id_maps dirs).2
        ∧ ∀ g, (d.num, g) ∉ (aggregate_tile_id_maps dirs).1)
    ∧ (∀ d ∈ dirs, ∀ g, d.tidMapFile = some g →
        (d.num, g) ∈ (aggregate_tile_id_maps dirs).1)
    ∧ (∀ ofs failed, aggregate_coarse_offsets dirs = .ok (ofs, failed) →
        (∀ d ∈ dirs, d.cxCyFile = none →
          d.num ∈ failed ∧ ∀ v, (d.num, v) ∉ ofs)
        ∧ (∀ d ∈ dirs, ∀ cx cy, d.cxCyFile = some (cx, cy) →
            ∃ v, (d.num, v) ∈ ofs))
    ∧ ((∀ d ∈ dirs, ∀ cx cy, d.cxCyFile = some (cx, cy) →
          (read_coarse_mat (.jsonF cx cy)).isSome) →
        ∃ p, aggregate_coarse_offsets dirs = .ok p) := by
  have hinj : ∀ x ∈ dirs, ∀ y ∈ dirs, x.num = y.num → x = y :=
    fun x hx y hy hxy => List.inj_on_of_nodup_map hnd hx hy hxy
  refine ⟨?_, ?_, ?_, aggregate_coarse_offsets_total dirs⟩
  · intro d hmem hnone
    constructor
    · exact (aggregate_tile_id_maps_mem2 dirs d.num).2 ⟨d, hmem, rfl, hnone⟩
    · intro g hcontra
      obtain ⟨d2, hmem2, hk, hg⟩ := (aggregate_tile_id_maps_mem1 dirs d.num g).1 hcontra
      have : d2 = d := hinj d2 hmem2 d hmem hk
      subst this
      rw [hnone] at hg
      exact absurd hg (by simp)
  · intro d hmem g hg
    exact (aggregate_tile_id_maps_mem1 dirs d.num g).2 ⟨d, hmem, rfl, hg⟩
  · intro ofs failed hok
    obtain ⟨h1, h2⟩ := aggregate_coarse_offsets_ok dirs ofs failed hok
    constructor
    · intro d hmem hnone
      constructor
      · exact (h1 d.num).2 ⟨d, hmem, rfl, hnone⟩
      · intro v hcontra
        obtain ⟨d2, hmem2, hk, cx, cy, r, hg, _, _⟩ := (h2 d.num v).1 hcontra
        have : d2 = d := hinj d2 hmem2 d hmem hk
        subst this
        rw [hnone] at hg
        exact absurd hg (by simp)
    · intro d hmem cx cy hg
      obtain ⟨r, hr⟩ :=
        aggregate_coarse_offsets_ok_reads dirs (ofs, failed) hok d hmem cx cy hg
      exact ⟨JArr.node [r.2.1, r.2.2],
        (h2 d.num (JArr.node [r.2.1, r.2.2])).2 ⟨d, hmem, rfl, cx, cy, r, hg, hr, rfl⟩⟩

/-- Witness for C5: directory 1 has both files, directory 2 has neither. -/
theorem c5_witness :
    (2 : ℤ) ∈ (aggregate_tile_id_maps [secDirA, secDirB]).2
    ∧ ((1 : ℤ), ([[1]] : Grid)) ∈ (aggregate_tile_id_maps [secDirA, secDirB]).1
    ∧ aggregate_coarse_offsets [secDirA, secDirB]
        = .ok ([(1, JArr.node [cxJson2, cxJson2])], [2]) := by
  have h := c5_missing_section_files [secDirA, secDirB] (by decide)
  refine ⟨(h.1 secDirB (List.mem_cons_of_mem _ (List.mem_cons_self _ _)) rfl).1,
    h.2.1 secDirA (List.mem_cons_self _ _) [[1]] rfl, rfl⟩

lemma optMapM_getElem {α β : Type} (f : α → Option β) :
    ∀ (xs : List α) (ys : List β), mapO f xs = some ys →
      ∀ i : ℕ, ys[i]? = (xs[i]?).bind f := by
  intro xs
  induction xs with
  | nil =>
    intro ys h i
    simp only [mapO, Option.some.injEq] at h
    subst h
    simp
  | cons a r ih =>
    intro ys h i
    simp only [mapO, Option.bind_eq_some, Option.map_eq_some'] at h
    obtain ⟨b, hb, bs, hbs, hys⟩ := h
    subst hys
    cases i with
    | zero => simp [hb]
    | succ n => simpa using ih bs hbs n

lemma sel0axis1_jget (a b : JArr) (h : sel0axis1 a = some b)
    (i : ℕ) (path : List ℕ) :
    jget b (i :: path) = jget a (i :: 0 :: path) := by
  cases a with
  | leaf q => simp [sel0axis1] at h
  | node xs =>
    simp only [sel0axis1, Option.map_eq_some'] at h
    obtain ⟨ys, hmapm, rfl⟩ := h
    simp only [jget]
    rw [optMapM_getElem _ xs ys hmapm i]
    cases hxi : xs[i]? with
    | none => simp
    | some s =>
      cases s with
      | leaf q => simp [jget]
      | node zs =>
        cases zs with
        | nil => simp [jget]
        | cons z0 ztl => simp [jget]

lemma sel0axes12_jget (a b : JArr) (h : sel0axes12 a = some b)
    (i : ℕ) (path : List ℕ) :
    jget b (i :: path) = jget a (i :: 0 :: 0 :: path) := by
  cases a with
  | leaf q => simp [sel0axes12] at h
  | node xs =>
    simp only [sel0axes12, Option.map_eq_some'] at h
    obtain ⟨ys, hmapm, rfl⟩ := h
    simp only [jget]
    rw [optMapM_getElem _ xs ys hmapm i]
    cases hxi : xs[i]? with
    | none => simp
    | some s =>
      cases s with
      | leaf q => simp [jget]
      | node zs =>
        cases zs with
        | nil => simp [jget]
        | cons s0 stl =>
          cases s0 with
          | leaf q2 => simp [jget]
          | node ws =>
            cases ws with
            | nil => simp [jget]
            | cons w0 wtl => simp [jget]

lemma sel0axis1_ndim (a b : JArr) (h : sel0axis1 a = some b)
    (h4 : ndim a = 4) : ndim b = 3 := by
  cases a with
  | leaf q => simp [ndim] at h4
  | node xs =>
    cases xs with
    | nil => simp [ndim] at h4
    | cons x0 rest =>
      have hx0 : ndim x0 = 3 := by
        simp only [ndim] at h4; omega
      simp only [sel0axis1, Option.map_eq_some'] at h
      obtain ⟨ys, hmapm, rfl⟩ := h
      simp only [mapO, Option.bind_eq_some, Option.map_eq_some'] at hmapm
      obtain ⟨y0, hy0, ys2, hys2, hys⟩ := hmapm
      subst hys
      cases x0 with
      | leaf q => simp at hy0
      | node zs =>
        cases zs with
        | nil => simp at hy0
        | cons z0 ztl =>
          simp only [Option.some.injEq] at hy0
          subst hy0
          have hz0 : ndim z0 = 2 := by
            simp only [ndim] at hx0; omega
          simp [ndim, hz0]

lemma sel0axes12_ndim (a b : JArr) (h : sel0axes12 a = some b)
    (h5 : ndim a = 5) : ndim b = 3 := by
  cases a with
  | leaf q => simp [ndim] at h5
  | node xs =>
    cases xs with
    | nil => simp [ndim] at h5
    | cons x0 rest =>
      have hx0 : ndim x0 = 4 := by
        simp only [ndim] at h5; omega
      simp only [sel0axes12, Option.map_eq_some'] at h
      obtain ⟨ys, hmapm, rfl⟩ := h
      simp only [mapO, Option.bind_eq_some, Option.map_eq_some'] at hmapm
      obtain ⟨y0, hy0, ys2, hys2, hys⟩ := hmapm
      subst hys
      cases x0 with
      | leaf q => simp at hy0
      | node zs =>
        cases zs with
        | nil => simp at hy0
        | cons s0 stl =>
          cases s0 with
          | leaf q2 => simp at hy0
          | node ws =>
            cases ws with
            | nil => simp at hy0
            | cons w0 wtl =>
              simp only [Option.some.injEq] at hy0
              subst hy0
              have hy : ndim w0 = 2 := by
                simp only [ndim] at hx0; omega
              simp [ndim, hy]

/-- C7 counterexample: a section directory carrying only `coarse.npz`
(no `cx_cy.json`) is recorded missing and receives no aggregated entry,
so the npz format is not accepted by the aggregation pass. -/
theorem c7_counterexample :
    npzOnlyDir.hasCoarseNpz = true ∧
      aggregate_coarse_offsets [npzOnlyDir] = .ok ([], [7]) :=
  ⟨rfl, rfl⟩

/-- C7 (amended): the aggregation pass accepts only the JSON format; for
accepted JSON files, when `cx` has 4 (resp. 5) dimensions both arrays are
reduced by selecting index 0 on the axis (axes) after the leading one,
reaching the canonical 3-axis shape, and the stacked `[cx, cy]` array is
stored under the section's key; in the npz reader the `coarse_mesh` entry
is mandatory, and the presence of a `coarse.npz` never influences the
aggregation result. -/
theorem c7_json_only_with_squeeze (dirs : List SectionDir) :
    (∀ cx cy mesh cx2 cy2,
        read_coarse_mat (.jsonF cx cy) = some (mesh, cx2, cy2) →
        mesh = none
        ∧ (ndim cx = 4 →
            (∀ (i : ℕ) (path : List ℕ),
              jget cx2 (i :: path) = jget cx (i :: 0 :: path))
            ∧ (∀ (i : ℕ) (path : List ℕ),
              jget cy2 (i :: path) = jget cy (i :: 0 :: path))
            ∧ ndim cx2 = 3)
        ∧ (ndim cx = 5 →
            (∀ (i : ℕ) (path : List ℕ),
              jget cx2 (i :: path) = jget cx (i :: 0 :: 0 :: path))
            ∧ (∀ (i : ℕ) (path : List ℕ),
              jget cy2 (i :: path) = jget cy (i :: 0 :: 0 :: path))
            ∧ ndim cx2 = 3)
        ∧ (ndim cx ≠ 4 → ndim cx ≠ 5 → cx2 = cx ∧ cy2 = cy))
    ∧ (∀ mcx mcy : Option JArr, read_coarse_mat (.npzF none mcx mcy) = none)
    ∧ (∀ d ∈ dirs, ∀ cx cy, d.cxCyFile = some (cx, cy) →
        ∀ ofs failed, aggregate_coarse_offsets dirs = .ok (ofs, failed) →
          ∃ r, read_coarse_mat (.jsonF cx cy) = some r ∧
            (d.num, JArr.node [r.2.1, r.2.2]) ∈ ofs)
    ∧ aggregate_coarse_offsets dirs
        = aggregate_coarse_offsets
            (dirs.map (fun d => ⟨d.num, d.tidMapFile, d.cxCyFile, false⟩)) := by
  refine ⟨?_, ?_, ?_, ?_⟩
  · intro cx cy mesh cx2 cy2 h
    by_cases h4 : ndim cx = 4
    · rw [show read_coarse_mat (.jsonF cx cy)
            = match sel0axis1 cx, sel0axis1 cy with
              | some a, some b => some (none, a, b)
              | _, _ => none by
          simp [read_coarse_mat, h4]] at h
      cases hsx : sel0axis1 cx with
      | none => rw [hsx] at h; cases hsy : sel0axis1 cy <;> rw [hsy] at h <;> simp at h
      | some sx =>
        cases hsy : sel0axis1 cy with
        | none => rw [hsx, hsy] at h; simp at h
        | some sy =>
          rw [hsx, hsy] at h
          simp only [Option.some.injEq, Prod.mk.injEq] at h
          obtain ⟨hm, hcx2, hcy2⟩ := h
          subst hcx2; subst hcy2
          refine ⟨hm.symm, fun _ => ⟨sel0axis1_jget cx sx hsx,
            sel0axis1_jget cy sy hsy, sel0axis1_ndim cx sx hsx h4⟩,
            fun h5 => absurd h4 (by omega), fun hn4 _ => absurd h4 hn4⟩
    · by_cases h5 : ndim cx = 5
      · rw [show read_coarse_mat (.jsonF cx cy)
              = match sel0axes12 cx, sel0axes12 cy with
                | some a, some b => some (none, a, b)
                | _, _ => none by
            simp [read_coarse_mat, h4, h5]] at h
        cases hsx : sel0axes12 cx with
        | none =>
          rw [hsx] at h; cases hsy : sel0axes12 cy <;> rw [hsy] at h <;> simp at h
        | some sx =>
          cases hsy : sel0axes12 cy with
          | none => rw [hsx, hsy] at h; simp at h
          | some sy =>
            rw [hsx, hsy] at h
            simp only [Option.some.injEq, Prod.mk.injEq] at h
            obtain ⟨hm, hcx2, hcy2⟩ := h
            subst hcx2; subst hcy2
            refine ⟨hm.symm, fun h4b => absurd h4b h4,
              fun _ => ⟨sel0axes12_jget cx sx hsx,
                sel0axes12_jget cy sy hsy, sel0axes12_ndim cx sx hsx h5⟩,
              fun _ hn5 => absurd h5 hn5⟩
      · rw [show read_coarse_mat (.jsonF cx cy) = some (none, cx, cy) by
            simp [read_coarse_mat, h4, h5]] at h
        simp only [Option.some.injEq, Prod.mk.injEq] at h
        obtain ⟨hm, hcx2, hcy2⟩ := h
        exact ⟨hm.symm, fun h4b => absurd h4b h4, fun h5b => absurd h5b h5,
          fun _ _ => ⟨hcx2.symm, hcy2.symm⟩⟩
  · intro mcx mcy
    cases mcx <;> cases mcy <;> rfl
  · intro d hmem cx cy hg ofs failed hok
    obtain ⟨r, hr⟩ :=
      aggregate_coarse_offsets_ok_reads dirs (ofs, failed) hok d hmem cx cy hg
    refine ⟨r, hr, ?_⟩
    exact ((aggregate_coarse_offsets_ok dirs ofs failed hok).2 d.num
      (JArr.node [r.2.1, r.2.2])).2 ⟨d, hmem, rfl, cx, cy, r, hg, hr, rfl⟩
  · induction dirs with
    | nil => rfl
    | cons d rest ih =>
      cases hd : d.cxCyFile with
      | none => simp [aggregate_coarse_offsets, hd, ih]
      | some pcxy =>
        obtain ⟨cx, cy⟩ := pcxy
        cases hread : read_coarse_mat (.jsonF cx cy) with
        | none => simp [aggregate_coarse_offsets, hd, hread]
        | some r =>
          obtain ⟨mesh, cx2, cy2⟩ := r
          simp [aggregate_coarse_offsets, hd, hread, ih]

/-- Witness for C7 (amended): directory 3 carries a 4-dimensional JSON
file; its squeezed stacked entry lands in the archive with 3 dimensions. -/
theorem c7_witness :
    read_coarse_mat (.jsonF j4Ex j4Ex) = some (none, j3Ex, j3Ex)
    ∧ ndim j3Ex = 3
    ∧ ((3 : ℤ), JArr.node [j3Ex, j3Ex])
        ∈ [((3 : ℤ), JArr.node [j3Ex, j3Ex])] := by
  have h := c7_json_only_with_squeeze [jsonDirEx]
  have hread : read_coarse_mat (.jsonF j4Ex j4Ex) = some (none, j3Ex, j3Ex) := rfl
  have hagg : aggregate_coarse_offsets [jsonDirEx]
      = .ok ([((3 : ℤ), JArr.node [j3Ex, j3Ex])], []) := rfl
  obtain ⟨r, hr, hmem⟩ := h.2.2.1 jsonDirEx (List.mem_cons_self _ _) j4Ex j4Ex rfl
    [((3 : ℤ), JArr.node [j3Ex, j3Ex])] [] hagg
  have hnd := ((h.1 j4Ex j4Ex none j3Ex j3Ex hread).2.1 rfl).2.2
  exact ⟨hread, hnd, by rw [hread] at hr; cases hr; exact hmem⟩

lemma dictInsert_of_not_mem {α : Type} (d : List (ℕ × α)) (k : ℕ) (v : α)
    (h : ∀ p ∈ d, p.1 ≠ k) : dictInsert d k v = d ++ [(k, v)] := by
  have hany : d.any (fun p => p.1 == k) = false := by
    rw [List.any_eq_false]
    intro p hp
    simpa using h p hp
  simp [dictInsert, hany]

lemma keys_filterMap_sublist {α β : Type} (stp : (ℕ × β) → Option (ℕ × α))
    (hpres : ∀ p e, stp p = some e → e.1 = p.1) :
    ∀ l : List (ℕ × β),
      ((l.filterMap stp).map Prod.fst).Sublist (l.map Prod.fst) := by
  intro l
  induction l with
  | nil => simp
  | cons b rest ih =>
    cases hb : stp b with
    | none =>
      rw [show List.filterMap stp (b :: rest) = List.filterMap stp rest by
        simp [List.filterMap_cons, hb]]
      simp only [List.map_cons]
      exact ih.cons b.1
    | some e =>
      rw [show List.filterMap stp (b :: rest) = e :: List.filterMap stp rest by
        simp [List.filterMap_cons, hb]]
      simp only [List.map_cons]
      rw [hpres b e hb]
      exact ih.cons₂ b.1

lemma foldl_upsert_filterMap {α β : Type} (stp : (ℕ × β) → Option (ℕ × α)) :
    ∀ (l : List (ℕ × β)) (acc : List (ℕ × α)),
      ((l.filterMap stp).map Prod.fst).Nodup →
      (∀ e ∈ l.filterMap stp, ∀ q ∈ acc, q.1 ≠ e.1) →
      l.foldl (upsertStep stp) acc = acc ++ l.filterMap stp := by
  intro l
  induction l with
  | nil => intro acc _ _; simp
  | cons b rest ih =>
    intro acc hnd hdisj
    cases hb : stp b with
    | none =>
      have hfm : List.filterMap stp (b :: rest) = List.filterMap stp rest := by
        simp [List.filterMap_cons, hb]
      rw [hfm] at hnd hdisj ⊢
      simp only [List.foldl_cons, upsertStep, hb]
      exact ih acc hnd hdisj
    | some e =>
      have hfm : List.filterMap stp (b :: rest) = e :: List.filterMap stp rest := by
        simp [List.filterMap_cons, hb]
      rw [hfm] at hnd hdisj ⊢
      simp only [List.map_cons, List.nodup_cons, List.mem_map] at hnd
      obtain ⟨hnotin, hnd2⟩ := hnd
      have hins : dictInsert acc e.1 e.2 = acc ++ [e] := by
        rw [dictInsert_of_not_mem acc e.1 e.2
          (fun q hq => hdisj e (List.mem_cons_self e _) q hq)]
      simp only [List.foldl_cons, upsertStep, hb, hins]
      rw [ih (acc ++ [e]) hnd2 ?_]
      · simp
      · intro e2 he2 q hq
        rcases List.mem_append.1 hq with hq1 | hq2
        · exact hdisj e2 (List.mem_cons_of_mem e he2) q hq1
        · rcases List.mem_singleton.1 hq2 with rfl
          intro hcontra
          exact hnotin ⟨e2, he2, hcontra.symm⟩

lemma traceStep_key (offs : List (ℕ × T4)) (tid : ℤ) (axis : ℕ) :
    ∀ p e, traceStep offs tid axis p = some e → e.1 = p.1 := by
  intro p e h
  cases hfc : findCoord p.2 tid with
  | none => simp [traceStep, hfc] at h
  | some yx =>
    obtain ⟨y, x⟩ := yx
    cases hlk : alookup offs p.1 with
    | none => simp [traceStep, hfc, hlk] at h
    | some t =>
      cases hgv : getVec t axis y x with
      | none => simp [traceStep, hfc, hlk, hgv] at h
      | some vec =>
        simp only [traceStep, hfc, hlk, hgv, Option.some.injEq] at h
        rw [← h]

lemma traceStep_eq_none_iff (offs : List (ℕ × T4)) (tid : ℤ) (axis : ℕ)
    (p : ℕ × Grid) :
    traceStep offs tid axis p = none ↔
      ∀ y x, findCoord p.2 tid = some (y, x) →
        ∀ t, alookup offs p.1 = some t → getVec t axis y x = none := by
  cases hfc : findCoord p.2 tid with
  | none =>
    simp only [traceStep, hfc]
    constructor
    · intro _ y x hcontra
      exact absurd hcontra (by simp)
    · intro _; trivial
  | some yx =>
    obtain ⟨y0, x0⟩ := yx
    cases hlk : alookup offs p.1 with
    | none =>
      simp only [traceStep, hfc, hlk]
      constructor
      · intro _ y x _ t hcontra
        exact absurd hcontra (by simp)
      · intro _; trivial
    | some t0 =>
      cases hgv : getVec t0 axis y0 x0 with
      | none =>
        simp only [traceStep, hfc, hlk, hgv]
        constructor
        · intro _ y x hyx t ht
          simp only [Option.some.injEq, Prod.mk.injEq] at hyx
          obtain ⟨rfl, rfl⟩ := hyx
          simp only [Option.some.injEq] at ht
          subst ht
          exact hgv
        · intro _; trivial
      | some vec =>
        simp only [traceStep, hfc, hlk, hgv]
        constructor
        · intro hcontra
          exact absurd hcontra (by simp)
        · intro hall
          have := hall y0 x0 rfl t0 rfl
          rw [hgv] at this
          simp at this

/-- C4 counterexample: tile 5 occurs in section 0's tile-id map, but the
offsets archive has no entry for section 0 (`KeyError`, silently skipped),
so the extractor returns the empty result even though the tile id is found
in one section. -/
theorem c4_counterexample :
    get_trace [(0, [[5]])] ([] : List (ℕ × T4)) 5 0 = none
    ∧ findCoord [[5]] 5 = some (0, 0) := ⟨rfl, rfl⟩

/-- C4 (amended): the extractor returns the empty result exactly when no
loaded section locates the tile id, has an offsets entry, and can index
the shift vector; for every section where all three succeed, the trace
maps the section number to that vector paired with the coordinate used. -/
theorem c4_get_trace (maps : List (ℕ × Grid)) (offs : List (ℕ × T4))
    (tid : ℤ) (axis : ℕ) (hnd : (maps.map Prod.fst).Nodup) :
    (get_trace maps offs tid axis = none ↔
      ∀ p ∈ maps, ∀ y x, findCoord p.2 tid = some (y, x) →
        ∀ t, alookup offs p.1 = some t → getVec t axis y x = none)
    ∧ (∀ p ∈ maps, ∀ y x t vec, findCoord p.2 tid = some (y, x) →
        alookup offs p.1 = some t → getVec t axis y x = some vec →
        ∃ dct, get_trace maps offs tid axis = some dct ∧
          (p.1, (vec, (y, x))) ∈ dct) := by
  have hnd2 : ((maps.filterMap (traceStep offs tid axis)).map Prod.fst).Nodup :=
    (keys_filterMap_sublist _ (traceStep_key offs tid axis) maps).nodup hnd
  have hfold : maps.foldl (upsertStep (traceStep offs tid axis)) []
      = maps.filterMap (traceStep offs tid axis) := by
    have := foldl_upsert_filterMap (traceStep offs tid axis) maps [] hnd2
      (by intro e _ q hq; simp at hq)
    simpa using this
  have hgt : get_trace maps offs tid axis
      = if (maps.filterMap (traceStep offs tid axis)).isEmpty then none
        else some (maps.filterMap (traceStep offs tid axis)) := by
    rw [get_trace, hfold]
  constructor
  · rw [hgt]
    by_cases hemp : (maps.filterMap (traceStep offs tid axis)).isEmpty
    · simp only [if_pos hemp, true_iff]
      rw [List.isEmpty_iff] at hemp
      intro p hp y x hfc t hlk
      have hstep : traceStep offs tid axis p = none := by
        cases hs : traceStep offs tid axis p with
        | none => rfl
        | some e =>
          have : e ∈ maps.filterMap (traceStep offs tid axis) :=
            List.mem_filterMap.2 ⟨p, hp, hs⟩
          rw [hemp] at this
          simp at this
      exact (traceStep_eq_none_iff offs tid axis p).1 hstep y x hfc t hlk
    · simp only [if_neg hemp]
      constructor
      · intro hcontra; simp at hcontra
      · intro hall
        exfalso
        apply hemp
        rw [List.isEmpty_iff, List.filterMap_eq_nil_iff]
        intro p hp
        exact (traceStep_eq_none_iff offs tid axis p).2 (hall p hp)
  · intro p hp y x t vec hfc hlk hgv
    have hstep : traceStep offs tid axis p = some (p.1, (vec, (y, x))) := by
      simp [traceStep, hfc, hlk, hgv]
    have hmem : (p.1, (vec, (y, x))) ∈ maps.filterMap (traceStep offs tid axis) :=
      List.mem_filterMap.2 ⟨p, hp, hstep⟩
    have hne : ¬ (maps.filterMap (traceStep offs tid axis)).isEmpty := by
      rw [List.isEmpty_iff]
      intro hcontra
      rw [hcontra] at hmem
      simp at hmem
    refine ⟨maps.filterMap (traceStep offs tid axis), ?_, hmem⟩
    rw [hgt, if_neg hne]

/-- Witness for C4 (amended): one section, one tile, offsets present. -/
theorem c4_witness :
    get_trace [(0, [[5]])] [(0, t4Ex)] 5 0
      = some [(0, ([CVal.fin 1, CVal.fin 2], (0, 0)))]
    ∧ ((0 : ℕ), (([CVal.fin 1, CVal.fin 2] : List CVal), ((0 : ℕ), (0 : ℕ))))
        ∈ [((0 : ℕ), (([CVal.fin 1, CVal.fin 2] : List CVal), ((0 : ℕ), (0 : ℕ))))] := by
  obtain ⟨dct, hd, hm⟩ := (c4_get_trace [(0, [[5]])] [(0, t4Ex)] 5 0 (by decide)).2
    (0, [[5]]) (List.mem_cons_self _ _) 0 0 t4Ex [CVal.fin 1, CVal.fin 2] rfl rfl rfl
  have h2 : some dct = some [((0 : ℕ),
      (([CVal.fin 1, CVal.fin 2] : List CVal), ((0 : ℕ), (0 : ℕ))))] :=
    hd.symm.trans rfl
  have h3 := Option.some.inj h2
  subst h3
  exact ⟨hd, hm⟩

/-- C8: the outlier report accumulates: a fresh file starts with the
header, an existing file is appended to without a second header, so two
successive store calls yield one header followed by both batches. -/
theorem c8_append_mode (r1 r2 c : List String) :
    store_outliers none r1 = outlier_header :: r1
    ∧ store_outliers (some c) r1 = c ++ r1
    ∧ store_outliers (some (store_outliers none r1)) r2
        = outlier_header :: (r1 ++ r2)
    ∧ (outlier_header ∉ r1 → outlier_header ∉ r2 →
        (store_outliers (some (store_outliers none r1)) r2).count outlier_header
          = 1) := by
  refine ⟨rfl, rfl, rfl, ?_⟩
  intro h1 h2
  have e1 : r1.count outlier_header = 0 := List.count_eq_zero.2 h1
  have e2 : r2.count outlier_header = 0 := List.count_eq_zero.2 h2
  show ((outlier_header :: r1) ++ r2).count outlier_header = 1
  rw [List.count_append, List.count_cons_self, e1, e2]

/-- Witness for C8 at concrete record batches. -/
theorem c8_witness :
    (store_outliers (some (store_outliers none ["1\t0\t0"])) ["2\t0\t1"]).count
      outlier_header = 1 :=
  (c8_append_mode ["1\t0\t0"] ["2\t0\t1"] []).2.2.2 (by decide) (by decide)

/-- C6 (code behavior at the failing input): for an outlier flagged at the
last grid column, the horizontal (axis 0) neighbor resolution
`int(tid_map[y][x + 1])` raises an uncaught `IndexError` instead of
producing a not-found result, while the vertical (axis 1) resolution of a
bottom-row outlier returns an explicit `none` and the run succeeds. -/
theorem c6_horizontal_lookup_raises :
    process_tile_id (fun t => t.map Prod.fst) [(0, [[1, 2]])] [(0, t4Ex1)] 2
      = .error "IndexError"
    ∧ outlierRecord [(0, [[1, 2]])] 0 0
        [(0, ([CVal.fin 1, CVal.fin 2], (0, 1)))] 0
      = .error "IndexError"
    ∧ process_tile_id (fun t => t.map Prod.fst)
        [(0, [[1, 2], [3, 4]])] [(0, t4Ex2)] 3
      = .ok [(0, (1, 1, 1, 0, 3, none))] :=
  ⟨rfl, rfl, rfl⟩

lemma dictInsert_keys {α : Type} (d : List (ℕ × α)) (k : ℕ) (v : α) :
    (dictInsert d k v).map Prod.fst
      = if d.any (fun p => p.1 == k) then d.map Prod.fst
        else d.map Prod.fst ++ [k] := by
  by_cases h : d.any (fun p => p.1 == k)
  · simp only [dictInsert, if_pos h, List.map_map]
    apply List.map_congr_left
    intro p _
    by_cases hp : p.1 = k
    · simp [hp]
    · simp [hp]
  · simp [dictInsert, if_neg h]

lemma dictInsert_keys_nodup {α : Type} (d : List (ℕ × α)) (k : ℕ) (v : α)
    (h : (d.map Prod.fst).Nodup) :
    ((dictInsert d k v).map Prod.fst).Nodup := by
  rw [dictInsert_keys]
  by_cases hany : d.any (fun p => p.1 == k)
  · simpa [hany] using h
  · simp only [if_neg hany]
    rw [List.nodup_append]
    refine ⟨h, List.nodup_singleton k, ?_⟩
    intro a ha hb
    rcases List.mem_singleton.1 hb with rfl
    rw [List.any_eq_true] at hany
    obtain ⟨p, hp, hpk⟩ := List.mem_map.1 ha
    exact hany ⟨p, hp, by simpa using hpk⟩

lemma foldl_dictInsert_nodup {α : Type} :
    ∀ (es : List (ℕ × α)) (acc : List (ℕ × α)),
      (acc.map Prod.fst).Nodup →
      ((es.foldl (fun a p => dictInsert a p.1 p.2) acc).map Prod.fst).Nodup := by
  intro es
  induction es with
  | nil => intro acc h; simpa using h
  | cons p rest ih =>
    intro acc h
    simp only [List.foldl_cons]
    exact ih (dictInsert acc p.1 p.2) (dictInsert_keys_nodup acc p.1 p.2 h)

lemma alookup_append {α : Type} (d1 d2 : List (ℕ × α)) (k : ℕ) :
    alookup (d1 ++ d2) k = (alookup d1 k).or (alookup d2 k) := by
  induction d1 with
  | nil => simp [alookup]
  | cons a rest ih =>
    by_cases ha : a.1 = k
    · simp [alookup, ha]
    · simp [alookup, ha, ih]

lemma alookup_eq_none_of_not_any {α : Type} (d : List (ℕ × α)) (k : ℕ)
    (h : ¬ d.any (fun p => p.1 == k) = true) : alookup d k = none := by
  induction d with
  | nil => rfl
  | cons a rest ih =>
    simp only [List.any_cons, Bool.or_eq_true] at h
    push_neg at h
    have ha : ¬ a.1 = k := by simpa using h.1
    simp only [alookup, if_neg ha]
    exact ih h.2

lemma alookup_map_upsert_self {α : Type} (k : ℕ) (v : α) :
    ∀ d : List (ℕ × α), d.any (fun p => p.1 == k) = true →
      alookup (d.map (fun p => if p.1 == k then (k, v) else p)) k = some v := by
  intro d
  induction d with
  | nil => intro h; simp at h
  | cons a rest ih =>
    intro h
    by_cases ha : a.1 = k
    · have hb : (a.1 == k) = true := by simpa using ha
      simp [alookup, hb]
    · have hb : ¬ (a.1 == k) = true := by simpa using ha
      have hrest : rest.any (fun p => p.1 == k) = true := by
        simpa [List.any_cons, hb] using h
      simp only [List.map_cons, if_neg hb, alookup, if_neg ha]
      exact ih hrest

lemma alookup_map_upsert_ne {α : Type} (k k2 : ℕ) (v : α) (hne : k2 ≠ k) :
    ∀ d : List (ℕ × α),
      alookup (d.map (fun p => if p.1 == k then (k, v) else p)) k2
        = alookup d k2 := by
  intro d
  induction d with
  | nil => rfl
  | cons a rest ih =>
    by_cases ha : a.1 = k
    · have hb : (a.1 == k) = true := by simpa using ha
      have hk2 : ¬ k = k2 := fun e => hne e.symm
      have hak2 : ¬ a.1 = k2 := by rw [ha]; exact hk2
      simp only [List.map_cons, if_pos hb, alookup, if_neg hk2, if_neg hak2]
      exact ih
    · have hb : ¬ (a.1 == k) = true := by simpa using ha
      by_cases ha2 : a.1 = k2
      · simp only [List.map_cons, if_neg hb, alookup, if_pos ha2]
      · simp only [List.map_cons, if_neg hb, alookup, if_neg ha2]
        exact ih

lemma alookup_dictInsert_self {α : Type} (d : List (ℕ × α)) (k : ℕ) (v : α) :
    alookup (dictInsert d k v) k = some v := by
  by_cases h : d.any (fun p => p.1 == k)
  · simp only [dictInsert, if_pos h]
    exact alookup_map_upsert_self k v d h
  · simp only [dictInsert, if_neg h]
    rw [alookup_append, alookup_eq_none_of_not_any d k h]
    simp [alookup]

lemma alookup_dictInsert_ne {α : Type} (d : List (ℕ × α)) (k k2 : ℕ) (v : α)
    (hne : k2 ≠ k) : alookup (dictInsert d k v) k2 = alookup d k2 := by
  by_cases h : d.any (fun p => p.1 == k)
  · simp only [dictInsert, if_pos h]
    exact alookup_map_upsert_ne k k2 v hne d
  · simp only [dictInsert, if_neg h]
    rw [alookup_append]
    have hkk2 : ¬ k = k2 := fun e => hne e.symm
    have h2 : alookup [(k, v)] k2 = none := by
      simp [alookup, hkk2]
    rw [h2]
    simp

lemma alookup_foldl_dictInsert {α : Type} :
    ∀ (es : List (ℕ × α)) (k : ℕ),
      alookup (es.foldl (fun a p => dictInsert a p.1 p.2) []) k
        = (es.reverse.find? (fun p => p.1 == k)).map Prod.snd := by
  intro es
  induction es using List.reverseRecOn with
  | nil => intro k; rfl
  | append_singleton l p ih =>
    intro k
    rw [List.foldl_append, List.reverse_append]
    simp only [List.foldl_cons, List.foldl_nil, List.reverse_singleton,
      List.singleton_append]
    by_cases hk : p.1 = k
    · subst hk
      rw [alookup_dictInsert_self]
      simp [List.find?_cons]
    · have hne2 : k ≠ p.1 := fun e => hk e.symm
      have hbf : (p.1 == k) = false := by simpa using hk
      rw [alookup_dictInsert_ne _ _ _ _ hne2]
      simp only [List.find?_cons, hbf]
      exact ih k

/-- C10: the `mapped_outliers` dict collected by `process_tile_id` is
keyed by section number alone, so it holds at most one record per flagged
section, and the record stored for a section is the one from the last
(axis, vector-component) assignment that flagged it. Holds for every
outlier detector the caller plugs in. -/
theorem c10_last_record_kept (detect : List (ℕ × CVal) → List ℕ)
    (maps : List (ℕ × Grid)) (offs : List (ℕ × T4)) (tid : ℤ)
    (d es : List (ℕ × OutRec))
    (hok : process_tile_id detect maps offs tid = .ok d)
    (hes : emissions detect maps offs tid = .ok es) :
    (d.map Prod.fst).Nodup
    ∧ ∀ num : ℕ, alookup d num
        = (es.reverse.find? (fun p => p.1 == num)).map Prod.snd := by
  have hd : d = es.foldl (fun acc p => dictInsert acc p.1 p.2) [] := by
    rw [process_tile_id, hes] at hok
    simp only [Except.map, Except.ok.injEq] at hok
    exact hok.symm
  subst hd
  exact ⟨foldl_dictInsert_nodup es [] (by simp),
    fun num => alookup_foldl_dictInsert es num⟩

/-- Witness for C10: tile 3 of a 2×2 grid is flagged by a
flag-everything detector under all four (axis, component) combinations;
the dict keeps exactly the last one (axis 1, component 1). -/
theorem c10_witness :
    (([((0 : ℕ), ((1, 1, 1, 0, 3, none) : OutRec))]).map Prod.fst).Nodup
    ∧ alookup [((0 : ℕ), ((1, 1, 1, 0, 3, none) : OutRec))] 0
        = some ((1, 1, 1, 0, 3, none) : OutRec) := by
  have h := c10_last_record_kept (fun t => t.map Prod.fst)
    [(0, [[1, 2], [3, 4]])] [(0, t4Ex2)] 3
    [(0, (1, 1, 1, 0, 3, none))]
    [(0, (0, 0, 1, 0, 3, some 4)), (0, (0, 1, 1, 0, 3, some 4)),
     (0, (1, 0, 1, 0, 3, none)), (0, (1, 1, 1, 0, 3, none))]
    rfl rfl
  exact ⟨h.1, (h.2 0).trans rfl⟩

lemma qvar_nonneg (l : List ℚ) : 0 ≤ qvar l := by
  apply div_nonneg
  · apply List.sum_nonneg
    intro x hx
    obtain ⟨q, _, rfl⟩ := List.mem_map.1 hx
    exact sq_nonneg _
  · exact Nat.cast_nonneg _

lemma flaggedAt_iff (vals : List ℚ) (bef aft : ℕ) (thr : ℚ) (i : ℕ) :
    flaggedAt vals bef aft thr i = true ↔
      (winVals vals bef aft i ≠ [] ∧
        (vals.getD i 0 - qmean (winVals vals bef aft i)) ^ 2
          > thr ^ 2 * qvar (winVals vals bef aft i)) := by
  by_cases hw : winVals vals bef aft i = []
  · simp [flaggedAt, hw]
  · simp [flaggedAt, hw, decide_eq_true_iff]

lemma sq_comparison_iff (v m thr var : ℚ) (hthr : 0 ≤ thr) (hvar : 0 ≤ var) :
    ((v - m) ^ 2 > thr ^ 2 * var) ↔
      |((v : ℝ)) - (m : ℝ)| > (thr : ℝ) * Real.sqrt ((var : ℝ)) := by
  have hvr : (0 : ℝ) ≤ (var : ℝ) := by exact_mod_cast hvar
  have hthrr : (0 : ℝ) ≤ (thr : ℝ) := by exact_mod_cast hthr
  have h1 : (thr : ℝ) * Real.sqrt var = Real.sqrt ((thr : ℝ) ^ 2 * var) := by
    rw [Real.sqrt_mul (sq_nonneg _), Real.sqrt_sq hthrr]
  rw [gt_iff_lt, gt_iff_lt, h1,
    show |(v : ℝ) - m| = Real.sqrt (((v : ℝ) - m) ^ 2) from
      (Real.sqrt_sq_eq_abs _).symm,
    Real.sqrt_lt_sqrt_iff (mul_nonneg (sq_nonneg _) hvr)]
  constructor
  · intro h; exact_mod_cast h
  · intro h; exact_mod_cast h

/-- C1: the modelled windowed outlier detector flags a position of an
ordered-by-key series iff the absolute deviation of its value from the
local mean exceeds the threshold times the local standard deviation,
where the window holds the up-to-`bef` preceding and up-to-`aft`
following observed values in key order (the point itself excluded,
truncated at the sequence ends), an empty window is never flagged, and
the returned elements are section ids, not positions. -/
theorem c1_windowed_outlier_detection (series : List (ℕ × ℚ)) (bef aft : ℕ)
    (thr : ℚ) (hthr : 0 ≤ thr)
    (hsort : series.Chain' (fun p q => p.1 < q.1))
    (i : ℕ) (hi : i < series.length) :
    ((series.get ⟨i, hi⟩).1 ∈ find_outliers series bef aft thr ↔
      (winVals (series.map Prod.snd) bef aft i ≠ [] ∧
        |(((series.get ⟨i, hi⟩).2 : ℝ))
            - ((qmean (winVals (series.map Prod.snd) bef aft i) : ℝ))|
          > (thr : ℝ)
            * Real.sqrt ((qvar (winVals (series.map Prod.snd) bef aft i) : ℝ))))
    ∧ (winVals (series.map Prod.snd) bef aft i).length
        = min bef i + min aft (series.length - (i + 1))
    ∧ (∀ k : ℕ, k < min bef i →
        (winVals (series.map Prod.snd) bef aft i)[k]?
          = (series.map Prod.snd)[i - min bef i + k]?)
    ∧ (∀ k : ℕ, min bef i ≤ k →
        k < min bef i + min aft (series.length - (i + 1)) →
        (winVals (series.map Prod.snd) bef aft i)[k]?
          = (series.map Prod.snd)[i + 1 + (k - min bef i)]?) := by
  have hL : (series.map Prod.snd).length = series.length := List.length_map _ _
  have hlen1 : (((series.map Prod.snd).take i).drop (i - bef)).length
      = min bef i := by
    rw [List.length_drop, List.length_take, hL]
    omega
  have hlen2 : (((series.map Prod.snd).drop (i + 1)).take aft).length
      = min aft (series.length - (i + 1)) := by
    rw [List.length_take, List.length_drop, hL]
  have hveq : (series.map Prod.snd).getD i 0 = (series.get ⟨i, hi⟩).2 := by
    rw [List.getD_eq_getElem?_getD, List.getElem?_map,
      List.getElem?_eq_getElem hi]
    rfl
  have hnodup : (series.map Prod.fst).Nodup := by
    have h1 : (series.map Prod.fst).Chain' (· < ·) :=
      (List.chain'_map Prod.fst).2 hsort
    have h2 : (series.map Prod.fst).Pairwise (· < ·) :=
      List.chain'_iff_pairwise.1 h1
    exact h2.imp (fun hab => Nat.ne_of_lt hab)
  refine ⟨?_, ?_, ?_, ?_⟩
  · constructor
    · intro hmem
      obtain ⟨⟨j, q⟩, hp, hif⟩ := List.mem_filterMap.1 hmem
      by_cases hflag : flaggedAt (series.map Prod.snd) bef aft thr j
      · rw [if_pos hflag] at hif
        have hq1 : q.1 = (series.get ⟨i, hi⟩).1 := Option.some.inj hif
        have hjq : series[j]? = some q := (withIdx_zero_mem series j q).1 hp
        have hkeyj : (series.map Prod.fst)[j]?
            = some (series.get ⟨i, hi⟩).1 := by
          rw [List.getElem?_map, hjq]
          simp [hq1]
        have hkeyi : (series.map Prod.fst)[i]?
            = some (series.get ⟨i, hi⟩).1 := by
          rw [List.getElem?_map, List.getElem?_eq_getElem hi]
          rfl
        have hij : i = j :=
          List.getElem?_inj (by rw [List.length_map]; exact hi) hnodup
            (hkeyi.trans hkeyj.symm)
        subst hij
        obtain ⟨hw2, hquad⟩ :=
          (flaggedAt_iff (series.map Prod.snd) bef aft thr i).1 hflag
        rw [hveq] at hquad
        exact ⟨hw2,
          (sq_comparison_iff _ _ _ _ hthr (qvar_nonneg _)).1 hquad⟩
      · rw [if_neg hflag] at hif
        simp at hif
    · rintro ⟨hw, hineq⟩
      have hflag : flaggedAt (series.map Prod.snd) bef aft thr i = true := by
        rw [flaggedAt_iff]
        refine ⟨hw, ?_⟩
        rw [hveq]
        exact (sq_comparison_iff _ _ _ _ hthr (qvar_nonneg _)).2 hineq
      apply List.mem_filterMap.2
      refine ⟨(i, series.get ⟨i, hi⟩), ?_, ?_⟩
      · exact (withIdx_zero_mem series i (series.get ⟨i, hi⟩)).2
          (List.getElem?_eq_getElem hi)
      · rw [if_pos hflag]
  · rw [winVals, List.length_append, hlen1, hlen2]
  · intro k hk
    rw [winVals, List.getElem?_append, if_pos (by rw [hlen1]; omega),
      List.getElem?_drop, List.getElem?_take_of_lt (by omega)]
    have hidx : i - bef + k = i - min bef i + k := by omega
    rw [hidx]
  · intro k hk1 hk2
    rw [winVals, List.getElem?_append_right (by rw [hlen1]; exact hk1), hlen1,
      List.getElem?_take_of_lt (by omega), List.getElem?_drop]

/-- Witness for C1: the spec's example series with window (2, 0) and
threshold 2, at the last position (section 5, value 10). -/
theorem c1_witness :
    (5 : ℕ) ∈ find_outliers [(1, 0), (2, 0), (3, 0), (4, 0), (5, 10)] 2 0 2 ↔
      (winVals [0, 0, 0, 0, 10] 2 0 4 ≠ [] ∧
        |((10 : ℚ) : ℝ) - ((qmean (winVals [0, 0, 0, 0, 10] 2 0 4) : ℚ) : ℝ)|
          > ((2 : ℚ) : ℝ)
            * Real.sqrt ((qvar (winVals [0, 0, 0, 0, 10] 2 0 4) : ℚ) : ℝ)) := by
  have h := c1_windowed_outlier_detection
    [(1, 0), (2, 0), (3, 0), (4, 0), (5, 10)] 2 0 2 (by norm_num)
    (by norm_num [List.chain'_cons]) 4 (by norm_num)
  exact h.1

/-- Witness for C2: a 1×1×1×1 tensor holding `+inf` at `(0,0,0,0)` and the
grid `[[1, 2]]`; the neighbor resolves one column right to tile 2. -/
theorem c2_witness :
    (0, 0, 0, 0) ∈ infCoords [[[[CVal.pinf]]]] ∧
      ∀ a b, ((0, 0, 0, 0), a, b) ∈ locatePairs [[[[CVal.pinf]]]] [[1, 2]] →
        b = some 2 := by
  have h := c2_locate_inf_vals [[[[CVal.pinf]]]] [[1, 2]] 0 0 0 0
  constructor
  · exact h.1.2 ⟨CVal.pinf, by decide, by decide⟩
  · intro a b hab
    have h2 := (h.2 a b hab).2.1 rfl
    rw [h2]; decide

end DatasetAlign
